import Mathlib

/-!
# Verification of the Dynasty walker-simulation core

Shallow embedding of the Dynasty repository's simulation engine
(`dynasty/walkers.py`), geometry assembler (`dynasty/renderer.py`) and
gradient sampler (`dynasty/colors.py`), together with proofs of the
spec-level claims about them.

Real numbers produced by the Python/NumPy code are modelled as exact
rationals (`ℚ`).  The NumPy pseudo-random generator is modelled as an
abstract deterministic stream `gen : ℕ → ℕ → ℚ` mapping a seed and a
draw index to the drawn value, which is exactly the property of
`numpy.random.default_rng` the reproducibility claims rely on.  The
square root used by `numpy.linalg.norm` is kept as an abstract function
parameter `sq : ℚ → ℚ` (a square root of a rational is in general not
rational); no claim in scope depends on its numeric values.
-/

namespace Dynasty

/-! ## Geometry assembler: `dynasty/renderer.py` -/

/-- The accumulation loop of `adjacent_lines_indexes`:
`for line_idx in zip(*(indexes[i:] for i in range(4))): lines_idx += line_idx`.
`zip` of the list with its own drops by 1, 2 and 3 enumerates every sliding
4-window, and each window's 4 indices are appended in order. -/
def lines_idx : List ℕ → List ℕ
  | a :: b :: c :: d :: rest => a :: b :: c :: d :: lines_idx (b :: c :: d :: rest)
  | _ => []

/-- `adjacent_lines_indexes(indexes)` from `dynasty/renderer.py`.
The Python function first executes `assert len(indexes) >= 2` (an
`AssertionError` is modelled as `none`), then pads the sequence as
`indexes = (indexes[0], *indexes, indexes[-1])` and runs the 4-window
accumulation loop. -/
def adjacent_lines_indexes (indexes : List ℕ) : Option (List ℕ) :=
  if 2 ≤ indexes.length then
    some (lines_idx (indexes.headD 0 :: indexes ++ [indexes.getLastD 0]))
  else none

/-- The successive chunks produced by
`chunks(range(vertex_count), walkers_count)` in `compute_vertex_buffers`,
where `vertex_count = iterations * walkers_count`:  chunk `t` holds the
`count` consecutive vertex indices of iteration `t`.  With `count = 0`
the vertex range is empty and `chunks` yields no chunk at all (its
generator stops as soon as a chunk has no first element). -/
def ringsChunks (iterations count : ℕ) : List (List ℕ) :=
  if count = 0 then []
  else (List.range iterations).map fun t => (List.range count).map fun w => t * count + w

/-- Closing of one ring chunk:  `if self.params.close_rings:
verts_idx.append(verts_idx[0])`. -/
def ringClosed (close : Bool) (c : List ℕ) : List ℕ :=
  if close then c ++ [c.headD 0] else c

/-- The rings-index loop of `compute_vertex_buffers`:
`rings_idx += adjacent_lines_indexes(verts_idx)` for every chunk.  An
`AssertionError` raised inside `adjacent_lines_indexes` aborts the whole
assembly, hence propagates as `none`. -/
def ringsFold (close : Bool) : List (List ℕ) → Option (List ℕ)
  | [] => some []
  | c :: rest =>
    match adjacent_lines_indexes (ringClosed close c), ringsFold close rest with
    | some idx, some rs => some (idx ++ rs)
    | _, _ => none

/-- The complete rings index buffer construction of
`compute_vertex_buffers`. -/
def computeRingsIdx (close : Bool) (iterations count : ℕ) : Option (List ℕ) :=
  ringsFold close (ringsChunks iterations count)

/-- The vertex indices of walker `i`'s trajectory:
`list(range(i, vertex_count, walkers_count))`. -/
def edgeVerts (iterations count i : ℕ) : List ℕ :=
  (List.range iterations).map fun k => i + k * count

/-- The edges-index loop of `compute_vertex_buffers`:  iterates over the
walkers; `if len(verts_idx) < 2: break` stops building all remaining
edges but keeps the indices accumulated so far. -/
def edgesFold (iterations count : ℕ) : List ℕ → Option (List ℕ)
  | [] => some []
  | i :: rest =>
    let verts := edgeVerts iterations count i
    if verts.length < 2 then some []
    else
      match adjacent_lines_indexes verts, edgesFold iterations count rest with
      | some idx, some rs => some (idx ++ rs)
      | _, _ => none

/-- The complete edges index buffer construction of
`compute_vertex_buffers` (`for i in range(walkers_count)`). -/
def computeEdgesIdx (iterations count : ℕ) : Option (List ℕ) :=
  edgesFold iterations count (List.range count)

/-! ## Simulation engine: `dynasty/walkers.py` -/

/-- `InterLaw` enumeration (labels omitted: the simulation never depends
on them). -/
inductive InterLaw where
  | position
  | velocity
  | newton_linear
  | newton
  | asymetry
deriving DecidableEq

/-- `RelModel` enumeration. -/
inductive RelModel where
  | oneToOne
  | sparse
  | manyToMany
deriving DecidableEq

/-- `SystemParameters` dataclass. -/
structure SystemParameters where
  count : ℕ := 3
  spread : ℚ := 10
  inter_law : InterLaw := .position
  rel_model : RelModel := .oneToOne
  rel_avg : ℚ := 1/10
  rel_var : ℚ := 0
  iterations : ℕ := 10
deriving DecidableEq

/-- One drawn value of `rand_spread_array`: `var * (2*u - 1) + avg`
where `u = rng.random()`. -/
def rand_spread (avg var u : ℚ) : ℚ := var * (2 * u - 1) + avg

/-- Entry lookup in a rational matrix stored as a list of rows (an
out-of-shape access defaults to `0`; the Python arrays are always
accessed in shape). -/
def entryQ (m : List (List ℚ)) (i j : ℕ) : ℚ := (m.getD i []).getD j 0

/-- Entry lookup in a boolean matrix stored as a list of rows. -/
def entryB (m : List (List Bool)) (i j : ℕ) : Bool := (m.getD i []).getD j false

/-- `generate_start_pos`: `rand_spread_array((count, 3), rng=...)` with
`avg=0, var=1`, i.e. `count × 3` values in `]-1, 1[`.
`rng.generator.random(shape)` fills the array row-major, so entry
`(i, x)` is the draw of index `3*i + x` after reseeding. -/
def startPosList (n : ℕ) (gen : ℕ → ℕ → ℚ) (seed : ℕ) : List (List ℚ) :=
  (List.range n).map fun i => (List.range 3).map fun x =>
    rand_spread 0 1 (gen seed (3 * i + x))

/-- The threshold of the `SPARSE` branch of `generate_relation_mask`:
`.25 + 1/n` (Python true division). -/
def sparseThreshold (n : ℕ) : ℚ := 1/4 + 1 / (n : ℚ)

/-- `generate_relation_mask`.  The three branches produce
* `ONE_TO_ONE`: `np.roll(np.eye(n), 1, axis=1)`, whose entry `(i, j)` is
  `eye[i][(j-1) mod n]`, i.e. true exactly when `j = (i+1) mod n`;
* `SPARSE`: `rng.generator.random((n, n)) < .25 + 1/n`, entry `(i, j)`
  using row-major draw index `n*i + j`;
* `MANY_TO_MANY`: `np.ones((n, n))`;
followed in all branches by `np.fill_diagonal(self.rel_mask, False)`,
embedded here as the outer `if i = j` test. -/
def relMaskList (model : RelModel) (n : ℕ) (gen : ℕ → ℕ → ℚ) (seed : ℕ) :
    List (List Bool) :=
  (List.range n).map fun i => (List.range n).map fun j =>
    if i = j then false
    else match model with
      | .oneToOne => decide (j = (i + 1) % n)
      | .sparse => decide (gen seed (n * i + j) < sparseThreshold n)
      | .manyToMany => true

/-- `generate_relation_matrix`:
`rand_spread_array((n, n), avg, var, rng)` (row-major draw index
`n*i + j`) multiplied elementwise by the boolean mask
(`self.rel_matrix *= self.rel_mask`). -/
def relMatrixList (n : ℕ) (avg var : ℚ) (gen : ℕ → ℕ → ℚ) (seed : ℕ)
    (mask : List (List Bool)) : List (List ℚ) :=
  (List.range n).map fun i => (List.range n).map fun j =>
    rand_spread avg var (gen seed (n * i + j)) * (if entryB mask i j then 1 else 0)

/-- One integration step of `compute_pos`, mapping `(pos, vel)` to the
updated `(pos, vel)`.  `pos` and `vel` are `n × 3` matrices, `rels` is
the `n × n` relation matrix, `sq` stands for the square root used by
`numpy.linalg.norm`.

* `POSITION`: `pos += rels @ pos - np.einsum('ij,ix->ix', rels, pos)`,
  whose entry is `pos[i][x] + Σ_j rels[i][j]·pos[j][x] - (Σ_j
  rels[i][j])·pos[i][x]`.
* `ASYMETRY`: `pos += rels @ pos - (pos.T @ rels).T`, whose entry is
  `pos[i][x] + Σ_j rels[i][j]·pos[j][x] - Σ_j pos[j][x]·rels[j][i]`.
* otherwise (`VELOCITY`, `NEWTON_LINEAR`, `NEWTON`):
  `forces = diff_array(pos)` has entry `pos[j] - pos[i]` at `(i, j)`;
  for the two Newton laws it is scaled by
  `10**4 / norms ** (deg+1)` where `norms[i][j] = sq (Σ_x (pos[j][x] -
  pos[i][x])^2)`.  NumPy produces `NaN` at zero distance (a `0/0`-shaped
  product) and `np.nan_to_num` then replaces it by `0`; rational
  division by zero is `0` in Lean, and the numerator `pos[j] - pos[i]`
  is the zero vector whenever a genuine Euclidean norm is zero, so the
  ℚ-convention coincides with the NumPy result in every state reachable
  with a genuine square root.  (The IEEE special values themselves are
  modelled in full detail by `Val` below.)  Then `forces *=
  rels[..., None]`, `vel += np.sum(.1 * forces, axis=1)`,
  `pos += vel`. -/
def stepOnce (law : InterLaw) (sq : ℚ → ℚ) (rels pos vel : List (List ℚ)) :
    List (List ℚ) × List (List ℚ) :=
  let n := pos.length
  match law with
  | .position =>
    (((List.range n).map fun i => (List.range 3).map fun x =>
        entryQ pos i x
          + (((List.range n).map fun j => entryQ rels i j * entryQ pos j x).sum
            - ((List.range n).map fun j => entryQ rels i j).sum * entryQ pos i x)),
     vel)
  | .asymetry =>
    (((List.range n).map fun i => (List.range 3).map fun x =>
        entryQ pos i x
          + (((List.range n).map fun j => entryQ rels i j * entryQ pos j x).sum
            - ((List.range n).map fun j => entryQ pos j x * entryQ rels j i).sum)),
     vel)
  | _ =>
    let deg : ℕ := if law = .newton then 2 else 1
    let force : ℕ → ℕ → ℕ → ℚ := fun i j x =>
      let diff := entryQ pos j x - entryQ pos i x
      match law with
      | .newton_linear | .newton =>
        let s := ((List.range 3).map fun y =>
          (entryQ pos j y - entryQ pos i y) ^ 2).sum
        diff * (10 ^ 4 / sq s ^ (deg + 1))
      | _ => diff
    let vel' := (List.range n).map fun i => (List.range 3).map fun x =>
      entryQ vel i x
        + ((List.range n).map fun j => (1/10) * (force i j x * entryQ rels i j)).sum
    (((List.range n).map fun i => (List.range 3).map fun x =>
        entryQ pos i x + entryQ vel' i x),
     vel')

/-- The iteration loop of `compute_pos`:  each pass first records the
current position snapshot (`positions.append(pos.copy())`), then updates
`pos` (and `vel`) according to the interaction law. -/
def computeSteps (law : InterLaw) (sq : ℚ → ℚ) (rels : List (List ℚ)) :
    ℕ → List (List ℚ) → List (List ℚ) → List (List (List ℚ))
  | 0, _, _ => []
  | k + 1, pos, vel =>
    pos :: (let pv := stepOnce law sq rels pos vel
            computeSteps law sq rels k pv.1 pv.2)

/-- `pos = self.start_pos * self.params.spread` (elementwise scalar
multiplication). -/
def scaleList (spread : ℚ) (m : List (List ℚ)) : List (List ℚ) :=
  m.map (List.map fun q => q * spread)

/-- `vel = np.zeros_like(pos)`. -/
def zerosLike (m : List (List ℚ)) : List (List ℚ) :=
  m.map (List.map fun _ => (0 : ℚ))

/-- `SeedableRNG`: a NumPy generator wrapper, holding the stored seed
and the number of values drawn since the last (re)seeding.  `reseed()`
without argument restores `counter` to `0`, so the generator replays the
same stream. -/
structure SeedableRNG where
  seed : ℕ
  counter : ℕ
deriving DecidableEq

/-- The mutable state of a `WalkerSystem` instance. -/
structure WSState where
  params : SystemParameters
  rng_start_pos : SeedableRNG
  rng_rel_mask : SeedableRNG
  rng_rel_matrix : SeedableRNG
  start_pos : Option (List (List ℚ))
  rel_mask : Option (List (List Bool))
  rel_matrix : Option (List (List ℚ))
  positions : Option (List (List (List ℚ)))
deriving DecidableEq

/-- A fresh `WalkerSystem(params)` whose three RNGs were seeded with
`s1`, `s2`, `s3` (in the code, three consecutive `perf_counter_ns`
based values); all computed arrays start out as `None`. -/
def initState (params : SystemParameters) (s1 s2 s3 : ℕ) : WSState :=
  ⟨params, ⟨s1, 0⟩, ⟨s2, 0⟩, ⟨s3, 0⟩, none, none, none, none⟩

/-- `WalkerSystem.generate_start_pos`: reseed (counter back to `0`),
then draw `count*3` values. -/
def genStartPosOp (gen : ℕ → ℕ → ℚ) (s : WSState) : WSState :=
  let n := s.params.count
  { s with
    rng_start_pos := ⟨s.rng_start_pos.seed, n * 3⟩,
    start_pos := some (startPosList n gen s.rng_start_pos.seed) }

/-- `WalkerSystem.generate_relation_mask`: reseed, then draw `n*n`
values in the `SPARSE` branch (the other branches draw nothing). -/
def genRelMaskOp (gen : ℕ → ℕ → ℚ) (s : WSState) : WSState :=
  let n := s.params.count
  { s with
    rng_rel_mask :=
      ⟨s.rng_rel_mask.seed, match s.params.rel_model with
        | .sparse => n * n
        | _ => 0⟩,
    rel_mask := some (relMaskList s.params.rel_model n gen s.rng_rel_mask.seed) }

/-- `WalkerSystem.generate_relation_matrix`: reseed, draw `n*n` values,
multiply by the mask.  If no mask was ever generated the Python code
raises a `TypeError` (`None` has no `__mul__` with an array), modelled
as a `none` result. -/
def genRelMatrixOp (gen : ℕ → ℕ → ℚ) (s : WSState) : WSState :=
  let n := s.params.count
  { s with
    rng_rel_matrix := ⟨s.rng_rel_matrix.seed, n * n⟩,
    rel_matrix := s.rel_mask.map fun mask =>
      relMatrixList n s.params.rel_avg s.params.rel_var gen
        s.rng_rel_matrix.seed mask }

/-- `WalkerSystem.compute_pos`: scale the start positions by `spread`,
zero the velocities and run the iteration loop.  A missing upstream
array would raise in Python, modelled as a `none` result. -/
def computePosOp (sq : ℚ → ℚ) (s : WSState) : WSState :=
  { s with positions := match s.start_pos, s.rel_matrix with
    | some sp, some rm =>
      some (computeSteps s.params.inter_law sq rm
        s.params.iterations (scaleList s.params.spread sp) (zerosLike sp))
    | _, _ => none }

/-- A stage invocation on a `WalkerSystem`. -/
inductive StageOp where
  | startPos
  | relMask
  | relMatrix
  | positions
deriving DecidableEq

/-- Run one stage. -/
def applyOp (gen : ℕ → ℕ → ℚ) (sq : ℚ → ℚ) : StageOp → WSState → WSState
  | .startPos => genStartPosOp gen
  | .relMask => genRelMaskOp gen
  | .relMatrix => genRelMatrixOp gen
  | .positions => computePosOp sq

/-- Run a sequence of stage invocations, oldest first. -/
def applyOps (gen : ℕ → ℕ → ℚ) (sq : ℚ → ℚ) : List StageOp → WSState → WSState
  | [], s => s
  | op :: rest, s => applyOps gen sq rest (applyOp gen sq op s)

/-- The full stage chain `generate_start_pos → generate_relation_mask →
generate_relation_matrix → compute_pos`. -/
def runChain (gen : ℕ → ℕ → ℚ) (sq : ℚ → ℚ) (s : WSState) : WSState :=
  computePosOp sq (genRelMatrixOp gen (genRelMaskOp gen (genStartPosOp gen s)))

/-- The position history the chain computes, as a pure function of the
parameters and the three seeds. -/
def chainPositions (gen : ℕ → ℕ → ℚ) (sq : ℚ → ℚ) (params : SystemParameters)
    (s1 s2 s3 : ℕ) : List (List (List ℚ)) :=
  let sp := startPosList params.count gen s1
  let mask := relMaskList params.rel_model params.count gen s2
  let mat := relMatrixList params.count params.rel_avg params.rel_var gen s3 mask
  computeSteps params.inter_law sq mat params.iterations
    (scaleList params.spread sp) (zerosLike sp)

/-! ## Gradient sampling: `dynasty/colors.py` -/

/-- `np.interp(x, xs, ys)` for a single query point over a sorted,
duplicate-free list of `(x, y)` samples: clamp to `ys[0]` below the
first sample and to `ys[-1]` above the last one, linear interpolation on
each inner segment. -/
def interp (x : ℚ) : List (ℚ × ℚ) → ℚ
  | [] => 0
  | [(_, y0)] => y0
  | (x0, y0) :: (x1, y1) :: rest =>
    if x ≤ x0 then y0
    else if x ≤ x1 then y0 + (x - x0) * (y1 - y0) / (x1 - x0)
    else interp x ((x1, y1) :: rest)

/-- `Gradient.generate(steps)` from `dynasty/colors.py`.  A gradient is
its sorted list of `(position, color)` stops (`SortedDict` iterates by
ascending key).  The stop positions are scaled onto `[0, steps]`
(`positions = np.array(tuple(self.keys())) * steps`) and every output
index `k ∈ range(steps)` is interpolated with `np.interp`, one channel
at a time; `self.channels` is the channel count of the last stop.  The
code assembles the result channel-major and transposes it, which is
content-wise the row-major assembly used here. -/
def gradGenerate (stops : List (ℚ × List ℚ)) (steps : ℕ) : List (List ℚ) :=
  (List.range steps).map fun (k : ℕ) =>
    (List.range (stops.getLastD (0, [])).2.length).map fun i =>
      interp (k : ℚ) (stops.map fun s => (s.1 * (steps : ℚ), s.2.getD i 0))

/-! ## The asymmetry-law formula as the spec states it (for claim C2)

This definition follows the SPEC's words, not the source; it exists only
to be compared against `stepOnce .asymetry`, which is the embedding of
the source. -/

/-- The per-walker update rule claimed by the spec for the asymmetry
law: `pos[i] += Σ_j rel[i][j]·pos[j] − (Σ_j rel[j][i])·pos[i]`, i.e.
the self-correction term is walker `i`'s own position weighted by the
sum of the transposed relation column. -/
def asymStepClaimed (rels pos : List (List ℚ)) : List (List ℚ) :=
  let n := pos.length
  (List.range n).map fun i => (List.range 3).map fun x =>
    entryQ pos i x
      + (((List.range n).map fun j => entryQ rels i j * entryQ pos j x).sum
        - ((List.range n).map fun j => entryQ rels j i).sum * entryQ pos i x)

/-! ## IEEE special values for the Newton-law zero-distance analysis
(claim C5)

`Val` models a NumPy float as an exact rational together with the three
special values `nan`, `inf`, `-inf`; arithmetic follows the IEEE rules
for special-value propagation (rounding and overflow of finite values
are not modelled).  This captures exactly the mechanism the code
comments describe: `10**4 / 0.0 = inf`, `0.0 * inf = nan`, and
`np.nan_to_num` collapsing `nan` to `0` and `±inf` to the largest finite
doubles. -/

/-- A NumPy double: a finite rational or one of the special values. -/
inductive Val where
  | fin (q : ℚ)
  | nan
  | inf
  | ninf
deriving DecidableEq

/-- IEEE addition on `Val`. -/
def vadd : Val → Val → Val
  | .fin a, .fin b => .fin (a + b)
  | .fin _, .inf => .inf
  | .fin _, .ninf => .ninf
  | .inf, .fin _ => .inf
  | .ninf, .fin _ => .ninf
  | .inf, .inf => .inf
  | .ninf, .ninf => .ninf
  | .inf, .ninf => .nan
  | .ninf, .inf => .nan
  | _, _ => .nan

/-- IEEE multiplication on `Val` (`0 * ±inf = nan`). -/
def vmul : Val → Val → Val
  | .fin a, .fin b => .fin (a * b)
  | .fin a, .inf => if 0 < a then .inf else if a < 0 then .ninf else .nan
  | .fin a, .ninf => if 0 < a then .ninf else if a < 0 then .inf else .nan
  | .inf, .fin a => if 0 < a then .inf else if a < 0 then .ninf else .nan
  | .ninf, .fin a => if 0 < a then .ninf else if a < 0 then .inf else .nan
  | .inf, .inf => .inf
  | .ninf, .ninf => .inf
  | .inf, .ninf => .ninf
  | .ninf, .inf => .ninf
  | _, _ => .nan

/-- IEEE division on `Val`, restricted to the shapes the code uses
(finite numerator; a nonzero finite number divided by zero gives a
signed infinity, NumPy's zeros being positive here). -/
def vdiv : Val → Val → Val
  | .fin a, .fin b =>
    if b = 0 then (if a = 0 then .nan else if 0 < a then .inf else .ninf)
    else .fin (a / b)
  | .fin _, .inf => .fin 0
  | .fin _, .ninf => .fin 0
  | .inf, .fin a => if a < 0 then .ninf else .inf
  | .ninf, .fin a => if a < 0 then .inf else .ninf
  | _, _ => .nan

/-- Sum of a list of `Val`s (the reduction `np.sum` performs). -/
def vsum (l : List Val) : Val := l.foldr vadd (.fin 0)

/-- The largest finite IEEE double, `(2^53 - 1) * 2^971 =
1.7976931348623157e308`, which `np.nan_to_num` substitutes for `inf`. -/
def MAXFLOAT : ℚ := (2 ^ 53 - 1) * 2 ^ 971

/-- `np.nan_to_num` with default arguments: `nan → 0.0`,
`inf → MAXFLOAT`, `-inf → -MAXFLOAT`, finite values unchanged. -/
def nanToNum : Val → Val
  | .nan => .fin 0
  | .inf => .fin MAXFLOAT
  | .ninf => .fin (-MAXFLOAT)
  | .fin a => .fin a

/-- `true` exactly on finite values. -/
def Val.isFin : Val → Bool
  | .fin _ => true
  | _ => false

/-- Squared Euclidean distance between walkers `i` and `j` (the value
whose square root `numpy.linalg.norm` computes along the last axis). -/
def normSq (n : ℕ) (pos : Fin n → Fin 3 → ℚ) (i j : Fin n) : ℚ :=
  ∑ y : Fin 3, (pos j y - pos i y) ^ 2

/-- One entry of the Newton-law force array after
`forces *= 10**4 / norms ** (deg+1)` and `np.nan_to_num(forces,
copy=False)`:  `forces[i][j] = pos[j] - pos[i]` (from `diff_array`),
multiplied by `10^4` divided by the norm raised to `deg+1`, with IEEE
special values propagated and then collapsed by `nan_to_num`.  `sq`
stands for the square root inside `numpy.linalg.norm`. -/
def newtonContribution (deg : ℕ) (sq : ℚ → ℚ) (n : ℕ)
    (pos : Fin n → Fin 3 → ℚ) (i j : Fin n) (x : Fin 3) : Val :=
  nanToNum (vmul (.fin (pos j x - pos i x))
    (vdiv (.fin (10 ^ 4)) (.fin (sq (normSq n pos i j) ^ (deg + 1)))))

/-- The same entry after the relation modulation
`forces *= rels[..., None]`. -/
def newtonModulated (deg : ℕ) (sq : ℚ → ℚ) (n : ℕ)
    (rel : Fin n → Fin n → ℚ) (pos : Fin n → Fin 3 → ℚ)
    (i j : Fin n) (x : Fin 3) : Val :=
  vmul (newtonContribution deg sq n pos i j x) (.fin (rel i j))

/-- One entry of the velocity after
`vel += np.sum(.1 * forces, axis=1)`. -/
def newtonVelUpd (deg : ℕ) (sq : ℚ → ℚ) (n : ℕ)
    (rel : Fin n → Fin n → ℚ) (pos vel : Fin n → Fin 3 → ℚ)
    (i : Fin n) (x : Fin 3) : Val :=
  vadd (.fin (vel i x))
    (vsum ((List.finRange n).map fun j =>
      vmul (.fin (1/10)) (newtonModulated deg sq n rel pos i j x)))

/-- One entry of the position after `pos += vel`. -/
def newtonPosUpd (deg : ℕ) (sq : ℚ → ℚ) (n : ℕ)
    (rel : Fin n → Fin n → ℚ) (pos vel : Fin n → Fin 3 → ℚ)
    (i : Fin n) (x : Fin 3) : Val :=
  vadd (.fin (pos i x)) (newtonVelUpd deg sq n rel pos vel i x)

/-! ## Expected sparse-mask density (claim C6) -/

/-- Expected number of true off-diagonal entries of a `SPARSE` relation
mask:  each of the `n^2 - n` off-diagonal cells is true independently
with probability `sparseThreshold n` (the uniform draw falling below the
threshold), and the diagonal cells are forced false afterwards. -/
def sparseExpectedOffDiagTrue (n : ℕ) : ℚ :=
  sparseThreshold n * ((n : ℚ) ^ 2 - (n : ℚ))

/-! ## Helper lemmas -/

theorem lines_idx_length : ∀ l : List ℕ, (lines_idx l).length = 4 * (l.length - 3)
  | [] => by simp [lines_idx]
  | [_] => by simp [lines_idx]
  | [_, _] => by simp [lines_idx]
  | [_, _, _] => by simp [lines_idx]
  | a :: b :: c :: d :: rest => by
    have ih := lines_idx_length (b :: c :: d :: rest)
    simp only [lines_idx, List.length_cons] at ih ⊢
    omega

theorem mem_lines_idx : ∀ l : List ℕ, ∀ x ∈ lines_idx l, x ∈ l
  | [], x, hx => by simp [lines_idx] at hx
  | [_], x, hx => by simp [lines_idx] at hx
  | [_, _], x, hx => by simp [lines_idx] at hx
  | [_, _, _], x, hx => by simp [lines_idx] at hx
  | a :: b :: c :: d :: rest, x, hx => by
    simp only [lines_idx, List.mem_cons] at hx
    rcases hx with h | h | h | h | h
    · simp [h]
    · simp [h]
    · simp [h]
    · simp [h]
    · have := mem_lines_idx (b :: c :: d :: rest) x h
      simp only [List.mem_cons] at this ⊢
      tauto

theorem getD_map_range {α : Type} (f : ℕ → α) (n i : ℕ) (hi : i < n) (d : α) :
    ((List.range n).map f).getD i d = f i := by
  rw [List.getD_eq_getElem?_getD, List.getElem?_map, List.getElem?_range hi]
  simp

theorem sum_map_sub (l : List ℕ) (f g : ℕ → ℚ) :
    ((l.map f).sum - (l.map g).sum) = (l.map fun x => f x - g x).sum := by
  induction l with
  | nil => simp
  | cons a t ih => simp only [List.map_cons, List.sum_cons, ← ih]; ring

theorem entryQ_eq_getElem (m : List (List ℚ)) (i j : ℕ) (hi : i < m.length)
    (hj : j < m[i].length) : entryQ m i j = m[i][j] := by
  unfold entryQ
  rw [show m.getD i [] = m[i] from by
    rw [List.getD_eq_getElem?_getD, List.getElem?_eq_getElem hi]; rfl]
  rw [List.getD_eq_getElem?_getD, List.getElem?_eq_getElem hj]
  rfl

/-! ## Claim C1 -/

/-- Claim C1: for every input sequence of vertex indices of length
`k ≥ 2`, `adjacent_lines_indexes` pads the sequence by duplicating its
first element at the front and its last element at the back and emits
every sliding 4-window of the padded sequence, so the result has exactly
`4*(k-1)` indices; for input `(0,1,2,3)` the result is exactly
`(0,0,1,2, 0,1,2,3, 1,2,3,3)`. -/
theorem adjacent_lines_indexes_spec :
    (∀ l : List ℕ, 2 ≤ l.length →
      adjacent_lines_indexes l =
        some (lines_idx (l.headD 0 :: l ++ [l.getLastD 0])) ∧
      ∃ r, adjacent_lines_indexes l = some r ∧ r.length = 4 * (l.length - 1)) ∧
    adjacent_lines_indexes [0, 1, 2, 3] =
      some [0, 0, 1, 2, 0, 1, 2, 3, 1, 2, 3, 3] := by
  refine ⟨fun l hl => ?_, by decide⟩
  have heq : adjacent_lines_indexes l =
      some (lines_idx (l.headD 0 :: l ++ [l.getLastD 0])) := by
    simp [adjacent_lines_indexes, hl]
  refine ⟨heq, _, heq, ?_⟩
  rw [lines_idx_length]
  simp only [List.length_cons, List.length_append, List.length_singleton,
    List.length_nil]
  omega

/-- Witness for claim C1's theorem at the concrete input `[5, 6, 7]`. -/
theorem adjacent_lines_indexes_spec_witness :
    2 ≤ ([5, 6, 7] : List ℕ).length ∧
    ∃ r, adjacent_lines_indexes [5, 6, 7] = some r ∧
      r.length = 4 * (([5, 6, 7] : List ℕ).length - 1) :=
  ⟨by decide, (adjacent_lines_indexes_spec.1 [5, 6, 7] (by decide)).2⟩

/-! ## Claim C2 -/

/-- Claim C2, counterexample: at `rel = [[0,0],[1,0]]` and
`pos = [[1,1,1],[2,2,2]]`, the code's asymmetry-law step
(`pos += rels @ pos - (pos.T @ rels).T`) computes `pos[0] = [-1,-1,-1]`,
while the update rule the claim states
(`pos[i] += Σ_j rel[i][j]·pos[j] - (Σ_j rel[j][i])·pos[i]`) would give
`pos[0] = [0,0,0]`. -/
theorem asym_step_counterexample :
    (stepOnce .asymetry id [[0, 0], [1, 0]] [[1, 1, 1], [2, 2, 2]]
      [[0, 0, 0], [0, 0, 0]]).1 ≠
    asymStepClaimed [[0, 0], [1, 0]] [[1, 1, 1], [2, 2, 2]] := by
  have hr2 : List.range 2 = [0, 1] := rfl
  have hr3 : List.range 3 = [0, 1, 2] := rfl
  have h1 : (stepOnce .asymetry id [[0, 0], [1, 0]] [[1, 1, 1], [2, 2, 2]]
      [[0, 0, 0], [0, 0, 0]]).1 = [[-1, -1, -1], [3, 3, 3]] := by
    norm_num [stepOnce, entryQ, hr2, hr3]
  have h2 : asymStepClaimed [[0, 0], [1, 0]] [[1, 1, 1], [2, 2, 2]] =
      [[0, 0, 0], [3, 3, 3]] := by
    norm_num [asymStepClaimed, entryQ, hr2, hr3]
  rw [h1, h2]
  norm_num

/-- Claim C2, amended: one integration step under the asymmetry law
updates each walker `i` by `pos[i] += Σ_j rel[i][j]·pos[j] − Σ_j
rel[j][i]·pos[j]` (the self-correction subtracts each walker `j`'s own
position weighted by the transposed entry `rel[j][i]`, not walker `i`'s
position weighted by the transposed column sum); consequently, for every
symmetric relation matrix the net motion per step is zero. -/
theorem asym_step_amended :
    (∀ (sq : ℚ → ℚ) (rels pos vel : List (List ℚ)) (i x : ℕ),
      i < pos.length → x < 3 →
      entryQ (stepOnce .asymetry sq rels pos vel).1 i x =
        entryQ pos i x +
          ((List.range pos.length).map fun j =>
            (entryQ rels i j - entryQ rels j i) * entryQ pos j x).sum) ∧
    (∀ (sq : ℚ → ℚ) (rels pos vel : List (List ℚ)),
      (∀ r ∈ pos, r.length = 3) →
      (∀ i < pos.length, ∀ j < pos.length, entryQ rels i j = entryQ rels j i) →
      (stepOnce .asymetry sq rels pos vel).1 = pos) := by
  have h1 : ∀ (sq : ℚ → ℚ) (rels pos vel : List (List ℚ)),
      (stepOnce .asymetry sq rels pos vel).1 =
      (List.range pos.length).map fun i => (List.range 3).map fun x =>
        entryQ pos i x
          + (((List.range pos.length).map fun j =>
              entryQ rels i j * entryQ pos j x).sum
            - ((List.range pos.length).map fun j =>
              entryQ pos j x * entryQ rels j i).sum) := fun _ _ _ _ => rfl
  have key : ∀ (sq : ℚ → ℚ) (rels pos vel : List (List ℚ)) (i x : ℕ),
      i < pos.length → x < 3 →
      entryQ (stepOnce .asymetry sq rels pos vel).1 i x =
        entryQ pos i x +
          ((List.range pos.length).map fun j =>
            (entryQ rels i j - entryQ rels j i) * entryQ pos j x).sum := by
    intro sq rels pos vel i x hi hx
    conv_lhs => rw [entryQ, h1, getD_map_range _ _ _ hi, getD_map_range _ _ _ hx]
    rw [sum_map_sub, show ((List.range pos.length).map fun j =>
        entryQ rels i j * entryQ pos j x - entryQ pos j x * entryQ rels j i) =
        ((List.range pos.length).map fun j =>
          (entryQ rels i j - entryQ rels j i) * entryQ pos j x) from
      List.map_congr_left fun j _ => by ring]
  refine ⟨key, fun sq rels pos vel hrow hsym => ?_⟩
  have hcancel : ∀ i < pos.length, ∀ x : ℕ,
      ((List.range pos.length).map fun j =>
        (entryQ rels i j - entryQ rels j i) * entryQ pos j x).sum = 0 := by
    intro i hi x
    rw [show ((List.range pos.length).map fun j =>
        (entryQ rels i j - entryQ rels j i) * entryQ pos j x) =
        (List.range pos.length).map fun _ => (0 : ℚ) from
      List.map_congr_left fun j hj => by
        rw [hsym i hi j (List.mem_range.mp hj)]; ring]
    simp
  apply List.ext_getElem
  · rw [h1]; simp
  intro i hi1 hi2
  apply List.ext_getElem
  · simp only [h1 sq rels pos vel, List.getElem_map, List.getElem_range]
    simp [hrow _ (List.getElem_mem hi2)]
  intro x hx1 hx2
  have hx : x < 3 := by
    have := hrow _ (List.getElem_mem hi2)
    omega
  rw [← entryQ_eq_getElem _ _ _ hi1 hx1, ← entryQ_eq_getElem _ _ _ hi2 hx2,
    key sq rels pos vel i x hi2 hx, hcancel i hi2 x]
  ring

/-- Witness for claim C2's amended theorem: a symmetric relation matrix
at a concrete input produces zero net motion. -/
theorem asym_step_amended_witness :
    (∀ r ∈ ([[1, 2, 3], [4, 5, 6]] : List (List ℚ)), r.length = 3) ∧
    (stepOnce .asymetry id [[0, 1], [1, 0]] [[1, 2, 3], [4, 5, 6]]
      [[0, 0, 0], [0, 0, 0]]).1 = [[1, 2, 3], [4, 5, 6]] :=
  ⟨by decide, asym_step_amended.2 id _ _ _ (by decide) (by
    intro i hi j hj
    have hi' : i < 2 := hi
    have hj' : j < 2 := hj
    interval_cases i <;> interval_cases j <;> simp [entryQ])⟩

/-! ## Claims C3 and C4: supporting lemmas -/

theorem computeSteps_length (law : InterLaw) (sq : ℚ → ℚ)
    (rels : List (List ℚ)) :
    ∀ (k : ℕ) (pos vel : List (List ℚ)),
      (computeSteps law sq rels k pos vel).length = k
  | 0, _, _ => rfl
  | k + 1, pos, vel => by
    simp only [computeSteps, List.length_cons]
    rw [computeSteps_length law sq rels k]

theorem computeSteps_head (law : InterLaw) (sq : ℚ → ℚ)
    (rels pos vel : List (List ℚ)) (k : ℕ) :
    (computeSteps law sq rels (k + 1) pos vel).head? = some pos := rfl

theorem runChain_positions (gen : ℕ → ℕ → ℚ) (sq : ℚ → ℚ) (s : WSState) :
    (runChain gen sq s).positions =
      some (chainPositions gen sq s.params s.rng_start_pos.seed
        s.rng_rel_mask.seed s.rng_rel_matrix.seed) := rfl

theorem runChain_start_pos (gen : ℕ → ℕ → ℚ) (sq : ℚ → ℚ) (s : WSState) :
    (runChain gen sq s).start_pos =
      some (startPosList s.params.count gen s.rng_start_pos.seed) := rfl

theorem applyOp_params (gen : ℕ → ℕ → ℚ) (sq : ℚ → ℚ) (op : StageOp)
    (s : WSState) : (applyOp gen sq op s).params = s.params := by
  cases op <;> rfl

theorem applyOp_seeds (gen : ℕ → ℕ → ℚ) (sq : ℚ → ℚ) (op : StageOp)
    (s : WSState) :
    (applyOp gen sq op s).rng_start_pos.seed = s.rng_start_pos.seed ∧
    (applyOp gen sq op s).rng_rel_mask.seed = s.rng_rel_mask.seed ∧
    (applyOp gen sq op s).rng_rel_matrix.seed = s.rng_rel_matrix.seed := by
  cases op <;> exact ⟨rfl, rfl, rfl⟩

theorem applyOps_invariants (gen : ℕ → ℕ → ℚ) (sq : ℚ → ℚ) :
    ∀ (ops : List StageOp) (s : WSState),
      (applyOps gen sq ops s).params = s.params ∧
      (applyOps gen sq ops s).rng_start_pos.seed = s.rng_start_pos.seed ∧
      (applyOps gen sq ops s).rng_rel_mask.seed = s.rng_rel_mask.seed ∧
      (applyOps gen sq ops s).rng_rel_matrix.seed = s.rng_rel_matrix.seed
  | [], s => ⟨rfl, rfl, rfl, rfl⟩
  | op :: rest, s => by
    have ih := applyOps_invariants gen sq rest (applyOp gen sq op s)
    have h1 := applyOp_params gen sq op s
    have h2 := applyOp_seeds gen sq op s
    simp only [applyOps]
    exact ⟨ih.1.trans h1, (ih.2.1).trans h2.1, (ih.2.2.1).trans h2.2.1,
      (ih.2.2.2).trans h2.2.2⟩

/-! ## Claim C3 -/

/-- Claim C3: for every fixed `SystemParameters` and fixed triple of
seeds, two independent runs of the full stage chain `generate_start_pos
→ generate_relation_mask → generate_relation_matrix → compute_pos`
produce identical position histories, regardless of which stages were
previously invoked, in whatever number and order (each stage begins by
reseeding its generator, so its draws never depend on earlier
consumption, and each stage recomputes its output from parameters,
seed and upstream arrays only). -/
theorem chain_two_runs (gen : ℕ → ℕ → ℚ) (sq : ℚ → ℚ)
    (params : SystemParameters) (s1 s2 s3 : ℕ)
    (prior1 prior2 : List StageOp) :
    ∃ hist,
      (runChain gen sq (applyOps gen sq prior1
        (initState params s1 s2 s3))).positions = some hist ∧
      (runChain gen sq (applyOps gen sq prior2
        (initState params s1 s2 s3))).positions = some hist := by
  have h1 := applyOps_invariants gen sq prior1 (initState params s1 s2 s3)
  have h2 := applyOps_invariants gen sq prior2 (initState params s1 s2 s3)
  refine ⟨chainPositions gen sq params s1 s2 s3, ?_, ?_⟩
  · rw [runChain_positions, h1.1, h1.2.1, h1.2.2.1, h1.2.2.2]; rfl
  · rw [runChain_positions, h2.1, h2.2.1, h2.2.2.1, h2.2.2.2]; rfl

/-! ## Claim C4 -/

/-- Claim C4: for every count `N ≥ 1` and every `iterations I ≥ 1`, the
position history produced by `compute_pos` has exactly `I` snapshots,
and snapshot 0 equals the start positions (the `N × 3` unit-cube sample)
scaled by `spread`, with no integration step applied before the first
snapshot is recorded. -/
theorem history_shape (gen : ℕ → ℕ → ℚ) (sq : ℚ → ℚ)
    (params : SystemParameters) (s1 s2 s3 : ℕ)
    (_hc : 1 ≤ params.count) (hi : 1 ≤ params.iterations) :
    ∃ hist sp,
      (runChain gen sq (initState params s1 s2 s3)).positions = some hist ∧
      (runChain gen sq (initState params s1 s2 s3)).start_pos = some sp ∧
      hist.length = params.iterations ∧
      hist.head? = some (scaleList params.spread sp) := by
  obtain ⟨k, hk⟩ : ∃ k, params.iterations = k + 1 :=
    ⟨params.iterations - 1, by omega⟩
  refine ⟨chainPositions gen sq params s1 s2 s3,
    startPosList params.count gen s1,
    runChain_positions gen sq (initState params s1 s2 s3),
    runChain_start_pos gen sq (initState params s1 s2 s3), ?_, ?_⟩
  · unfold chainPositions
    rw [computeSteps_length]
  · unfold chainPositions
    rw [hk, computeSteps_head]

/-- Witness for claim C4's theorem at the default parameters (`count =
3`, `iterations = 10`) and a concrete generator. -/
theorem history_shape_witness :
    1 ≤ ({} : SystemParameters).count ∧ 1 ≤ ({} : SystemParameters).iterations ∧
    ∃ hist sp,
      (runChain (fun _ _ => 1/2) id (initState {} 0 1 2)).positions = some hist ∧
      (runChain (fun _ _ => 1/2) id (initState {} 0 1 2)).start_pos = some sp ∧
      hist.length = ({} : SystemParameters).iterations ∧
      hist.head? = some (scaleList ({} : SystemParameters).spread sp) :=
  ⟨by decide, by decide,
    history_shape (fun _ _ => 1/2) id {} 0 1 2 (by decide) (by decide)⟩

/-! ## Claim C5: supporting lemmas -/

theorem nanToNum_isFin (v : Val) : (nanToNum v).isFin = true := by
  cases v <;> rfl

theorem isFin_iff (v : Val) : v.isFin = true ↔ ∃ q, v = .fin q := by
  cases v <;> simp [Val.isFin]

theorem vadd_fin_fin (a b : ℚ) : vadd (.fin a) (.fin b) = .fin (a + b) := rfl

theorem vmul_fin_fin (a b : ℚ) : vmul (.fin a) (.fin b) = .fin (a * b) := rfl

theorem vsum_isFin (l : List Val) (h : ∀ v ∈ l, v.isFin = true) :
    (vsum l).isFin = true := by
  induction l with
  | nil => rfl
  | cons a t ih =>
    obtain ⟨qa, ha⟩ := (isFin_iff a).mp (h a (List.mem_cons_self a t))
    obtain ⟨qt, ht⟩ := (isFin_iff (vsum t)).mp
      (ih fun v hv => h v (List.mem_cons_of_mem a hv))
    show (vadd a (vsum t)).isFin = true
    rw [ha, ht, vadd_fin_fin]
    rfl

theorem newtonContribution_isFin (deg : ℕ) (sq : ℚ → ℚ) (n : ℕ)
    (pos : Fin n → Fin 3 → ℚ) (i j : Fin n) (x : Fin 3) :
    (newtonContribution deg sq n pos i j x).isFin = true :=
  nanToNum_isFin _

/-! ## Claim C5 -/

/-- Claim C5: for every positions array — including arrays where two or
more walkers coincide exactly — an integration step under a Newton-style
law (`deg = 1` linear, `deg = 2` quadratic) produces only finite values
in the velocity and position arrays: the zero-distance division produces
a `NaN` that `np.nan_to_num` neutralizes to a zero force contribution
before accumulation, so no `NaN` or `Inf` survives. -/
theorem newton_zero_distance_safe :
    (∀ (deg : ℕ) (sq : ℚ → ℚ) (n : ℕ) (rel : Fin n → Fin n → ℚ)
      (pos vel : Fin n → Fin 3 → ℚ) (i : Fin n) (x : Fin 3),
      (newtonVelUpd deg sq n rel pos vel i x).isFin = true ∧
      (newtonPosUpd deg sq n rel pos vel i x).isFin = true) ∧
    (∀ (deg : ℕ) (sq : ℚ → ℚ) (n : ℕ) (rel : Fin n → Fin n → ℚ)
      (pos : Fin n → Fin 3 → ℚ) (i j : Fin n),
      (∀ y, pos i y = pos j y) →
      ∀ x, newtonContribution deg sq n pos i j x = .fin 0 ∧
        newtonModulated deg sq n rel pos i j x = .fin 0) := by
  have hmod : ∀ (deg : ℕ) (sq : ℚ → ℚ) (n : ℕ) (rel : Fin n → Fin n → ℚ)
      (pos : Fin n → Fin 3 → ℚ) (i j : Fin n) (x : Fin 3),
      (newtonModulated deg sq n rel pos i j x).isFin = true := by
    intro deg sq n rel pos i j x
    obtain ⟨q, hq⟩ := (isFin_iff _).mp (newtonContribution_isFin deg sq n pos i j x)
    unfold newtonModulated
    rw [hq, vmul_fin_fin]
    rfl
  constructor
  · intro deg sq n rel pos vel i x
    have hvel : (newtonVelUpd deg sq n rel pos vel i x).isFin = true := by
      unfold newtonVelUpd
      obtain ⟨qs, hqs⟩ := (isFin_iff _).mp (vsum_isFin
        ((List.finRange n).map fun j =>
          vmul (.fin (1/10)) (newtonModulated deg sq n rel pos i j x))
        (by
          intro v hv
          obtain ⟨j, _, hj⟩ := List.mem_map.mp hv
          obtain ⟨q, hq⟩ := (isFin_iff _).mp (hmod deg sq n rel pos i j x)
          rw [← hj, hq, vmul_fin_fin]
          rfl))
      rw [hqs, vadd_fin_fin]
      rfl
    refine ⟨hvel, ?_⟩
    unfold newtonPosUpd
    obtain ⟨q, hq⟩ := (isFin_iff _).mp hvel
    rw [hq, vadd_fin_fin]
    rfl
  · intro deg sq n rel pos i j hzero x
    have hdiff : pos j x - pos i x = 0 := by rw [hzero x]; ring
    have hcon : newtonContribution deg sq n pos i j x = .fin 0 := by
      unfold newtonContribution
      rw [hdiff]
      by_cases hd : sq (normSq n pos i j) ^ (deg + 1) = 0
      · rw [hd]
        show nanToNum (vmul (.fin 0) (vdiv (.fin (10 ^ 4)) (.fin 0))) = .fin 0
        norm_num [vdiv, vmul, nanToNum]
      · rw [show vdiv (.fin (10 ^ 4)) (.fin (sq (normSq n pos i j) ^ (deg + 1))) =
            .fin (10 ^ 4 / sq (normSq n pos i j) ^ (deg + 1)) from by
          simp [vdiv, hd]]
        rw [vmul_fin_fin]
        norm_num [nanToNum]
    refine ⟨hcon, ?_⟩
    unfold newtonModulated
    rw [hcon, vmul_fin_fin]
    norm_num

/-- Witness for claim C5's theorem: two coinciding walkers at the origin
under the quadratic Newton law contribute exactly zero force. -/
theorem newton_zero_distance_safe_witness :
    (∀ y : Fin 3, (fun (_ : Fin 2) (_ : Fin 3) => (0 : ℚ)) 0 y =
      (fun (_ : Fin 2) (_ : Fin 3) => (0 : ℚ)) 1 y) ∧
    newtonContribution 2 id 2 (fun _ _ => 0) 0 1 0 = .fin 0 ∧
    newtonModulated 2 id 2 (fun _ _ => 1) (fun _ _ => 0) 0 1 0 = .fin 0 :=
  ⟨fun _ => rfl,
    (newton_zero_distance_safe.2 2 id 2 (fun _ _ => 1) (fun _ _ => 0) 0 1
      (fun _ => rfl) 0).1,
    (newton_zero_distance_safe.2 2 id 2 (fun _ _ => 1) (fun _ _ => 0) 0 1
      (fun _ => rfl) 0).2⟩

/-! ## Claim C6 -/

/-- Claim C6 (refuting the code comment's stated intent): under the
sparse relation model each off-diagonal entry is true with probability
`0.25 + 1/N`, so the expected number of realized off-diagonal true
entries is `0.25·(N²−N) + (N−1)`, which for every `N ≥ 2` differs from
the 25 % off-diagonal density (`0.25·(N²−N)`) that the code comment
(`"maintain a final 25% probability"`) and the spec claim. -/
theorem sparse_density_gap (n : ℕ) (hn : 2 ≤ n) :
    sparseExpectedOffDiagTrue n =
      (1/4) * ((n : ℚ) ^ 2 - (n : ℚ)) + ((n : ℚ) - 1) ∧
    sparseExpectedOffDiagTrue n ≠ (1/4) * ((n : ℚ) ^ 2 - (n : ℚ)) := by
  have hq : (2 : ℚ) ≤ (n : ℚ) := by exact_mod_cast hn
  have hne : (n : ℚ) ≠ 0 := by linarith
  have heq : sparseExpectedOffDiagTrue n =
      (1/4) * ((n : ℚ) ^ 2 - (n : ℚ)) + ((n : ℚ) - 1) := by
    unfold sparseExpectedOffDiagTrue sparseThreshold
    field_simp
    ring
  refine ⟨heq, ?_⟩
  rw [heq]
  intro h
  have : (n : ℚ) - 1 = 0 := by linarith
  linarith

/-- Witness for claim C6's theorem at `N = 4`: the expected realized
off-diagonal true count is `6` of `12` cells (50 %), not `3` (25 %). -/
theorem sparse_density_gap_witness :
    2 ≤ 4 ∧ sparseExpectedOffDiagTrue 4 ≠
      (1/4) * (((4 : ℕ) : ℚ) ^ 2 - ((4 : ℕ) : ℚ)) :=
  ⟨by norm_num, (sparse_density_gap 4 (by norm_num)).2⟩

/-! ## Claim C7: supporting lemma -/

theorem map_getD_range_self (l : List ℚ) :
    (List.range l.length).map (fun i => l.getD i 0) = l := by
  apply List.ext_getElem
  · simp
  intro i h1 h2
  rw [List.getElem_map, List.getElem_range]
  rw [List.getD_eq_getElem?_getD, List.getElem?_eq_getElem h2]
  rfl

/-! ## Claim C7 -/

/-- Claim C7, counterexample: sampling the gradient with stops
`{0.0: (255,255,255,255), 1.0: (0,0,0,255)}` over `N = 10` steps yields
`(25.5, 25.5, 25.5, 255)` at output index 9 — not the last stop's color
`(0, 0, 0, 255)` (a gap of `255/N` per channel, far beyond
interpolation rounding). -/
theorem gradient_endpoint_counterexample :
    (gradGenerate [(0, [255, 255, 255, 255]), (1, [0, 0, 0, 255])] 10).getD 9 []
      ≠ [0, 0, 0, 255] := by
  have h : (gradGenerate [(0, [255, 255, 255, 255]), (1, [0, 0, 0, 255])] 10).getD 9 []
      = [51/2, 51/2, 51/2, 255] := by
    unfold gradGenerate
    rw [getD_map_range _ _ _ (by norm_num : (9 : ℕ) < 10)]
    have hr4 : ((([((0 : ℚ), ([255, 255, 255, 255] : List ℚ)),
        (1, [0, 0, 0, 255])]).getLastD (0, [])).2.length) = 4 := rfl
    rw [hr4]
    have hr : List.range 4 = [0, 1, 2, 3] := rfl
    rw [hr]
    norm_num [interp]
  rw [h]
  norm_num

/-- Claim C7, amended: for a gradient with stops exactly
`{0.0: c_first, 1.0: c_last}` and `N ≥ 2` steps, `Gradient.generate(N)`
returns `c_first` exactly at output index 0, but at output index `N-1`
it returns `c_first + ((N-1)/N)·(c_last − c_first)` per channel — the
stop at position 1.0 is mapped to output position `N`, one past the last
index, so `c_last` itself is generally not attained. -/
theorem gradient_endpoints_amended (c0 c1 : List ℚ) (N : ℕ)
    (hlen : c0.length = c1.length) (hN : 2 ≤ N) :
    (gradGenerate [(0, c0), (1, c1)] N).getD 0 [] = c0 ∧
    (gradGenerate [(0, c0), (1, c1)] N).getD (N - 1) [] =
      (List.range c1.length).map (fun i =>
        c0.getD i 0 + (((N : ℚ) - 1) * (c1.getD i 0 - c0.getD i 0)) / (N : ℚ)) := by
  have h2Q : (2 : ℚ) ≤ (N : ℚ) := by exact_mod_cast hN
  have hch : ((([((0 : ℚ), c0), (1, c1)]).getLastD (0, [])).2.length) = c1.length := rfl
  constructor
  · unfold gradGenerate
    rw [getD_map_range _ _ _ (by omega : 0 < N), hch]
    rw [show ((List.range c1.length).map fun i =>
        interp (((0 : ℕ) : ℚ)) ([((0 : ℚ), c0), (1, c1)].map fun s =>
          (s.1 * (N : ℚ), s.2.getD i 0))) =
        (List.range c1.length).map (fun i => c0.getD i 0) from
      List.map_congr_left fun i _ => by norm_num [interp]]
    rw [← hlen, map_getD_range_self]
  · unfold gradGenerate
    rw [getD_map_range _ _ _ (by omega : N - 1 < N), hch]
    apply List.map_congr_left
    intro i _
    have hcast : (((N - 1 : ℕ)) : ℚ) = (N : ℚ) - 1 := by
      rw [Nat.cast_sub (by omega : 1 ≤ N)]
      norm_num
    simp only [List.map_cons, List.map_nil, interp, hcast]
    rw [if_neg (by linarith), if_pos (by linarith [h2Q])]
    ring

/-- Witness for claim C7's amended theorem at the white-to-black
4-channel gradient over 10 steps. -/
theorem gradient_endpoints_amended_witness :
    ([255, 255, 255, 255] : List ℚ).length = ([0, 0, 0, 255] : List ℚ).length ∧
    2 ≤ 10 ∧
    (gradGenerate [(0, [255, 255, 255, 255]), (1, [0, 0, 0, 255])] 10).getD 0 [] =
      [255, 255, 255, 255] :=
  ⟨by decide, by decide,
    (gradient_endpoints_amended [255, 255, 255, 255] [0, 0, 0, 255] 10
      (by decide) (by decide)).1⟩

/-! ## Claim C8: supporting lemmas -/

theorem relMask_entry (model : RelModel) (n : ℕ) (gen : ℕ → ℕ → ℚ) (seed : ℕ)
    (i j : ℕ) (hi : i < n) (hj : j < n) :
    entryB (relMaskList model n gen seed) i j =
      if i = j then false
      else match model with
        | .oneToOne => decide (j = (i + 1) % n)
        | .sparse => decide (gen seed (n * i + j) < sparseThreshold n)
        | .manyToMany => true := by
  unfold entryB relMaskList
  rw [getD_map_range _ _ _ hi, getD_map_range _ _ _ hj]
  cases model <;> rfl

theorem succ_mod_ne (n i : ℕ) (hn : 2 ≤ n) (hi : i < n) : (i + 1) % n ≠ i := by
  rcases Nat.lt_or_ge (i + 1) n with h | h
  · rw [Nat.mod_eq_of_lt h]; omega
  · have he : i + 1 = n := by omega
    rw [he, Nat.mod_self]; omega

/-! ## Claim C8 -/

/-- Claim C8: for every count `N ≥ 2` and every relation model, the
generated mask has an all-false diagonal; under one-to-one, row `i` is
true exactly at column `(i+1) mod N` (hence has exactly one true
entry); under many-to-many every off-diagonal entry is true. -/
theorem mask_invariants (model : RelModel) (n : ℕ) (gen : ℕ → ℕ → ℚ)
    (seed : ℕ) (i j : ℕ) (hn : 2 ≤ n) (hi : i < n) (hj : j < n) :
    entryB (relMaskList model n gen seed) i i = false ∧
    entryB (relMaskList .oneToOne n gen seed) i j = decide (j = (i + 1) % n) ∧
    ((relMaskList .oneToOne n gen seed).getD i []).count true = 1 ∧
    (i ≠ j → entryB (relMaskList .manyToMany n gen seed) i j = true) := by
  have hmod := succ_mod_ne n i hn hi
  refine ⟨?_, ?_, ?_, ?_⟩
  · rw [relMask_entry model n gen seed i i hi hi]
    simp
  · rw [relMask_entry .oneToOne n gen seed i j hi hj]
    by_cases hij : i = j
    · subst hij
      simp [Ne.symm hmod]
    · simp [hij]
  · unfold relMaskList
    rw [getD_map_range _ _ _ hi]
    rw [show ((List.range n).map fun j =>
        if i = j then false else decide (j = (i + 1) % n)) =
        (List.range n).map fun j => j == (i + 1) % n from
      List.map_congr_left fun j _ => by
        by_cases hij : i = j
        · subst hij
          simp [Ne.symm hmod]
        · rw [if_neg hij]
          rfl]
    rw [List.count, List.countP_map]
    rw [show ((fun x => x == true) ∘ fun j => j == (i + 1) % n) =
        (· == (i + 1) % n) from by
      funext j
      simp]
    exact List.count_eq_one_of_mem (List.nodup_range n)
      (List.mem_range.mpr (Nat.mod_lt _ (by omega)))
  · intro hij
    rw [relMask_entry .manyToMany n gen seed i j hi hj]
    simp [hij]

/-- Witness for claim C8's theorem at `N = 3`, entry `(0, 1)`, with a
concrete generator and seed. -/
theorem mask_invariants_witness :
    2 ≤ 3 ∧ (0 : ℕ) < 3 ∧ (1 : ℕ) < 3 ∧
    (entryB (relMaskList .sparse 3 (fun _ _ => 1/2) 7) 0 0 = false ∧
     entryB (relMaskList .oneToOne 3 (fun _ _ => 1/2) 7) 0 1 =
       decide (1 = (0 + 1) % 3) ∧
     ((relMaskList .oneToOne 3 (fun _ _ => 1/2) 7).getD 0 []).count true = 1 ∧
     (0 ≠ 1 → entryB (relMaskList .manyToMany 3 (fun _ _ => 1/2) 7) 0 1 = true)) :=
  ⟨by decide, by decide, by decide,
    mask_invariants .sparse 3 (fun _ _ => 1/2) 7 0 1
      (by decide) (by decide) (by decide)⟩

/-! ## Claims C9 and C10: supporting lemmas -/

theorem headD_mem (a : ℕ) (t : List ℕ) (d : ℕ) : (a :: t).headD d ∈ a :: t := by
  simp

theorem getLastD_mem : ∀ (a : ℕ) (t : List ℕ) (d : ℕ),
    (a :: t).getLastD d ∈ a :: t
  | _, [], _ => by simp
  | a, b :: t, d => by
    have := getLastD_mem b t d
    simp only [List.getLastD_cons] at this ⊢
    exact List.mem_cons_of_mem a this

theorem adjacent_mem (l r : List ℕ) (x : ℕ)
    (h : adjacent_lines_indexes l = some r) (hx : x ∈ r) : x ∈ l := by
  unfold adjacent_lines_indexes at h
  by_cases hl : 2 ≤ l.length
  · rw [if_pos hl] at h
    obtain ⟨a, t, rfl⟩ : ∃ a t, l = a :: t := by
      cases l with
      | nil => simp at hl
      | cons a t => exact ⟨a, t, rfl⟩
    have hx' := mem_lines_idx _ x (by rw [← Option.some_inj.mp h] at hx; exact hx)
    rcases List.mem_cons.mp hx' with h1 | h1
    · rw [h1]
      exact headD_mem a t 0
    · rcases List.mem_append.mp h1 with h2 | h2
      · exact h2
      · rw [List.mem_singleton.mp h2]
        exact getLastD_mem a t 0
  · rw [if_neg hl] at h
    exact absurd h (by simp)

theorem ringsFold_complete (close : Bool) :
    ∀ cs : List (List ℕ),
      (∀ c ∈ cs, 2 ≤ (ringClosed close c).length) →
      ∃ l, ringsFold close cs = some l
  | [], _ => ⟨[], rfl⟩
  | c :: rest, h => by
    obtain ⟨l2, h2⟩ := ringsFold_complete close rest
      (fun c hc => h c (List.mem_cons_of_mem _ hc))
    refine ⟨lines_idx ((ringClosed close c).headD 0 :: ringClosed close c ++
      [(ringClosed close c).getLastD 0]) ++ l2, ?_⟩
    have h1 : adjacent_lines_indexes (ringClosed close c) =
        some (lines_idx ((ringClosed close c).headD 0 :: ringClosed close c ++
          [(ringClosed close c).getLastD 0])) := by
      unfold adjacent_lines_indexes
      rw [if_pos (h c (List.mem_cons_self _ _))]
    simp [ringsFold, h1, h2]

theorem ringsFold_mem (close : Bool) :
    ∀ (cs : List (List ℕ)) (r : List ℕ) (x : ℕ),
      ringsFold close cs = some r → x ∈ r →
      ∃ c ∈ cs, x ∈ ringClosed close c
  | [], r, x, h, hx => by
    simp only [ringsFold, Option.some_inj] at h
    rw [← h] at hx
    simp at hx
  | c :: rest, r, x, h, hx => by
    unfold ringsFold at h
    cases hadj : adjacent_lines_indexes (ringClosed close c) with
    | none => rw [hadj] at h; exact absurd h (by simp)
    | some idx =>
      cases hrest : ringsFold close rest with
      | none => rw [hadj, hrest] at h; exact absurd h (by simp)
      | some rs =>
        rw [hadj, hrest] at h
        simp only [Option.some_inj] at h
        rw [← h, List.mem_append] at hx
        rcases hx with hx | hx
        · exact ⟨c, List.mem_cons_self _ _, adjacent_mem _ _ _ hadj hx⟩
        · obtain ⟨c', hc', hxc'⟩ := ringsFold_mem close rest rs x hrest hx
          exact ⟨c', List.mem_cons_of_mem _ hc', hxc'⟩

theorem ringsChunks_mem_bound (iterations count : ℕ) (c : List ℕ) (x : ℕ)
    (hcnt : 1 ≤ count) (hc : c ∈ ringsChunks iterations count)
    (close : Bool) (hx : x ∈ ringClosed close c) : x < iterations * count := by
  unfold ringsChunks at hc
  rw [if_neg (by omega)] at hc
  obtain ⟨t, ht, rfl⟩ := List.mem_map.mp hc
  have ht' : t < iterations := List.mem_range.mp ht
  have hbound : ∀ y ∈ (List.range count).map fun w => t * count + w,
      y < iterations * count := by
    intro y hy
    obtain ⟨w, hw, rfl⟩ := List.mem_map.mp hy
    have hw' : w < count := List.mem_range.mp hw
    calc t * count + w < t * count + count := by omega
    _ = (t + 1) * count := by ring
    _ ≤ iterations * count := Nat.mul_le_mul_right count (by omega)
  unfold ringClosed at hx
  cases close with
  | false => exact hbound x hx
  | true =>
    simp only [if_pos] at hx
    rw [List.mem_append, List.mem_singleton] at hx
    rcases hx with hx | hx
    · exact hbound x hx
    · apply hbound
      rw [hx]
      obtain ⟨k, rfl⟩ : ∃ k, count = k + 1 := ⟨count - 1, by omega⟩
      rw [List.range_succ_eq_map]
      simp

theorem edgesFold_mem (iterations count : ℕ) :
    ∀ (ws : List ℕ) (r : List ℕ) (x : ℕ),
      edgesFold iterations count ws = some r → x ∈ r →
      ∃ i ∈ ws, x ∈ edgeVerts iterations count i
  | [], r, x, h, hx => by
    simp only [edgesFold, Option.some_inj] at h
    rw [← h] at hx
    simp at hx
  | i :: rest, r, x, h, hx => by
    unfold edgesFold at h
    by_cases hshort : (edgeVerts iterations count i).length < 2
    · rw [if_pos hshort] at h
      simp only [Option.some_inj] at h
      rw [← h] at hx
      simp at hx
    · rw [if_neg hshort] at h
      cases hadj : adjacent_lines_indexes (edgeVerts iterations count i) with
      | none => rw [hadj] at h; exact absurd h (by simp)
      | some idx =>
        cases hrest : edgesFold iterations count rest with
        | none => rw [hadj, hrest] at h; exact absurd h (by simp)
        | some rs =>
          rw [hadj, hrest] at h
          simp only [Option.some_inj] at h
          rw [← h, List.mem_append] at hx
          rcases hx with hx | hx
          · exact ⟨i, List.mem_cons_self _ _, adjacent_mem _ _ _ hadj hx⟩
          · obtain ⟨i', hi', hxi'⟩ := edgesFold_mem iterations count rest rs x hrest hx
            exact ⟨i', List.mem_cons_of_mem _ hi', hxi'⟩

theorem ringsFold_head_short (c : List ℕ) (rest : List (List ℕ))
    (h : (ringClosed false c).length < 2) :
    ringsFold false (c :: rest) = none := by
  unfold ringsFold
  rw [show adjacent_lines_indexes (ringClosed false c) = none from by
    unfold adjacent_lines_indexes
    rw [if_neg (by omega)]]

/-! ## Claim C9 -/

/-- Claim C9, counterexample: with `count = 1` and `close_rings` false
(one iteration), the single ring chunk has one vertex; the rings index
construction does not skip it — `adjacent_lines_indexes`' `assert
len(indexes) >= 2` fails, so geometry assembly aborts with an
`AssertionError` (modelled `none`) instead of completing with that
polyline contributing no indices. -/
theorem rings_short_chunk_counterexample :
    computeRingsIdx false 1 1 = none ∧
    ∀ l : List ℕ, computeRingsIdx false 1 1 ≠ some l :=
  ⟨rfl, fun _ h => Option.noConfusion h⟩

/-- Claim C9, amended: during rings index construction a ring chunk with
fewer than 2 vertices (count = 1 with `close_rings` false) is *not*
skipped: it makes the `len >= 2` assertion in `adjacent_lines_indexes`
fail, so geometry assembly raises an error; whenever every chunk reaches
length ≥ 2 (count ≥ 2, or `close_rings` set, which appends the first
vertex and brings a 1-vertex chunk to length 2), assembly completes
normally. -/
theorem rings_short_chunk_amended :
    (∀ iterations : ℕ, 1 ≤ iterations →
      computeRingsIdx false iterations 1 = none) ∧
    (∀ (close : Bool) (iterations count : ℕ), 2 ≤ count ∨ close = true →
      ∃ l, computeRingsIdx close iterations count = some l) := by
  constructor
  · intro iterations hit
    obtain ⟨k, rfl⟩ : ∃ k, iterations = k + 1 := ⟨iterations - 1, by omega⟩
    unfold computeRingsIdx ringsChunks
    rw [if_neg (by omega : ¬(1 : ℕ) = 0),
      show List.range (k + 1) = 0 :: (List.range k).map Nat.succ from
        List.range_succ_eq_map k]
    simp only [List.map_cons]
    refine ringsFold_head_short _ _ ?_
    decide
  · intro close iterations count h
    apply ringsFold_complete
    intro c hc
    unfold ringsChunks at hc
    by_cases hc0 : count = 0
    · rw [if_pos hc0] at hc
      simp at hc
    · rw [if_neg hc0] at hc
      obtain ⟨t, ht, rfl⟩ := List.mem_map.mp hc
      unfold ringClosed
      rcases h with h2 | hcl
      · cases close <;> simp <;> omega
      · rw [hcl]
        simp
        omega

/-- Witness for claim C9's amended theorem: `count = 1` without closing
errors out, and with closing completes. -/
theorem rings_short_chunk_amended_witness :
    (2 ≤ 1 ∨ true = true) ∧
    (1 ≤ 1 ∧ computeRingsIdx false 1 1 = none) ∧
    ∃ l, computeRingsIdx true 1 1 = some l :=
  ⟨Or.inr rfl, ⟨by decide, rings_short_chunk_amended.1 1 (by decide)⟩,
    rings_short_chunk_amended.2 true 1 1 (Or.inr rfl)⟩

/-! ## Claim C10 -/

/-- Claim C10: every index emitted by `adjacent_lines_indexes` is an
element of its input sequence; consequently, for `count ≥ 2`, every
entry of both the rings and edges index buffers built by
`compute_vertex_buffers` is below `iterations * count`, the length of
the flattened vertex buffer. -/
theorem index_buffers_in_bounds :
    (∀ (l r : List ℕ) (x : ℕ),
      adjacent_lines_indexes l = some r → x ∈ r → x ∈ l) ∧
    (∀ (close : Bool) (iterations count : ℕ) (r : List ℕ) (x : ℕ),
      2 ≤ count → computeRingsIdx close iterations count = some r → x ∈ r →
      x < iterations * count) ∧
    (∀ (iterations count : ℕ) (r : List ℕ) (x : ℕ),
      2 ≤ count → computeEdgesIdx iterations count = some r → x ∈ r →
      x < iterations * count) := by
  refine ⟨adjacent_mem, ?_, ?_⟩
  · intro close it cnt r x h2 hr hx
    obtain ⟨c, hc, hxc⟩ := ringsFold_mem close _ r x hr hx
    exact ringsChunks_mem_bound it cnt c x (by omega) hc close hxc
  · intro it cnt r x h2 hr hx
    obtain ⟨i, hi, hxi⟩ := edgesFold_mem it cnt _ r x hr hx
    have hi' : i < cnt := List.mem_range.mp hi
    unfold edgeVerts at hxi
    obtain ⟨k, hk, rfl⟩ := List.mem_map.mp hxi
    have hk' : k < it := List.mem_range.mp hk
    calc i + k * cnt < cnt + k * cnt := by omega
    _ = (k + 1) * cnt := by ring
    _ ≤ it * cnt := Nat.mul_le_mul_right cnt (by omega)

/-- Witness for claim C10's theorem at the concrete rings buffer of a
2-iteration, 2-walker system with closed rings. -/
theorem index_buffers_in_bounds_witness :
    2 ≤ 2 ∧
    computeRingsIdx true 2 2 =
      some [0, 0, 1, 0, 0, 1, 0, 0, 2, 2, 3, 2, 2, 3, 2, 2] ∧
    0 ∈ [0, 0, 1, 0, 0, 1, 0, 0, 2, 2, 3, 2, 2, 3, 2, 2] ∧
    0 < 2 * 2 :=
  ⟨by decide, by decide, by decide,
    index_buffers_in_bounds.2.1 true 2 2
      [0, 0, 1, 0, 0, 1, 0, 0, 2, 2, 3, 2, 2, 3, 2, 2] 0
      (by decide) (by decide) (by decide)⟩

end Dynasty
